import Mathlib

/-!
Verification of the rustrimmer FASTQ quality trimmer.

The development shallowly embeds the three core components of the
repository:

* `trim_record` (src/trim.rs): the pure quality-trimming function, in
  both single-base and sliding-window modes.  Byte slices become
  `List Nat` (each element a byte value), `Option<(Vec<u8>, Vec<u8>)>`
  becomes `TrimResult` where the extra `panic` constructor models a
  Rust out-of-bounds slice panic (`&seq[start..=end]` with `end` past
  the end of `seq`), which is reachable because the source only checks
  the two slices for emptiness, not for equal length.  Truncated `Nat`
  subtraction coincides with the source's `saturating_sub`.  The
  sliding-window prefix sums are `u32` in the source: additions and
  subtractions are modelled wrapping modulo `2 ^ 32` (the release-build
  semantics; a debug build panics on the first overflowing addition
  instead, so past the overflow threshold the two builds agree only in
  not returning the exact-mean answer), and the window divisor is the
  truncated `win as u32`.  When that truncated divisor is `0` — which
  needs the absurd `window ≥ 2 ^ 32` and a read at least as long — the
  real program panics with a division by zero while this total model
  divides by zero to `0`; every theorem below whose hypotheses admit
  such a window carries a read-length bound that excludes it.
* the paired-end lock-step loop (src/main.rs): `pairedLoop` over two
  lists of records and an explicit counter/sink state.
* the gzip auto-detection of `open_input` (src/io_utils.rs).

The `while` loops of the source are translated as structurally
recursive functions over an explicit iteration-count argument that is
initialised with the exact number of iterations the loop can still
make, so every definition evaluates by `decide`/`rfl`.
-/

namespace Rustrimmer

/-- Phred+33 score of a quality byte: `b.saturating_sub(33)` in the source.
On `Nat`, truncated subtraction is exactly saturating subtraction. -/
def score (b : Nat) : Nat := b - 33

/-- Result of `trim_record`: `drop` models `None`, `kept` models
`Some((seq, qual))`, and `panic` models a Rust slice-index panic. -/
inductive TrimResult where
  | panic : TrimResult
  | drop : TrimResult
  | kept (s q : List Nat) : TrimResult
deriving DecidableEq, Repr

/-- One pass of the source loop
`while start_idx <= end_idx { if q >= qual_thr break; start_idx += 1 }`,
with `fuel` the number of iterations the loop can still make
(`e + 1 - s` at the wrapper).  When the fuel is `0` we have `s > e`
and the loop would exit at once, so returning `s` is exact. -/
def advanceStartGo (qual : List Nat) (thr : Nat) : Nat → Nat → Nat → Nat
  | 0, s, _ => s
  | fuel + 1, s, e =>
    if s ≤ e then
      if thr ≤ score (qual.getD s 0) then s
      else advanceStartGo qual thr fuel (s + 1) e
    else s

/-- Left-cursor loop of single-base trimming (src/trim.rs lines 17-24). -/
def advanceStart (qual : List Nat) (thr s e : Nat) : Nat :=
  advanceStartGo qual thr (e + 1 - s) s e

/-- One pass of the source loop
`while end_idx >= start_idx { if q >= qual_thr break; if end_idx == 0 break;
end_idx -= 1 }`, with `fuel ≥ e + 1` at the wrapper so it never runs out. -/
def retreatEndGo (qual : List Nat) (thr : Nat) : Nat → Nat → Nat → Nat
  | 0, _, e => e
  | fuel + 1, s, e =>
    if s ≤ e then
      if thr ≤ score (qual.getD e 0) then e
      else if e = 0 then e
      else retreatEndGo qual thr fuel s (e - 1)
    else e

/-- Right-cursor loop of single-base trimming (src/trim.rs lines 26-35). -/
def retreatEnd (qual : List Nat) (thr s e : Nat) : Nat :=
  retreatEndGo qual thr (e + 1) s e

/-- Single-base cursor resolution: the left cursor starts at `0`, the right
cursor starts at `qual.len() - 1`, and the right loop uses the updated left
cursor as its lower bound, exactly as in the source. -/
def singleBounds (qual : List Nat) (thr : Nat) : Nat × Nat :=
  let s := advanceStart qual thr 0 (qual.length - 1)
  let e := retreatEnd qual thr s (qual.length - 1)
  (s, e)

/-- `qual.iter().map(|b| b.saturating_sub(33) as u32).collect()`.  Every
score fits a `u32` (it is at most `222`), so only the later sums wrap. -/
def scoresOf (qual : List Nat) : List Nat := qual.map score

/-- The number of `u32` values: the source's prefix-sum vector holds `u32`
entries, so its arithmetic is modulo this constant. -/
def u32Card : Nat := 2 ^ 32

/-- The running-sum loop `ps.push(ps.last().unwrap() + *s)` started from the
accumulator `acc`; the wrapper starts from `0` with `ps = vec![0]`.  The
addition is a `u32` addition: it wraps modulo `2 ^ 32` (release semantics;
a debug build panics at the first overflow, reachable from roughly
19.35 million maximal-score bases on). -/
def cumSumsFrom (acc : Nat) : List Nat → List Nat
  | [] => [acc]
  | s :: rest => acc :: cumSumsFrom ((acc + s) % u32Card) rest

/-- The source's prefix-sum vector `ps` (`ps[0] = 0`,
`ps[k+1] = (ps[k] + scores[k]) mod 2 ^ 32`). -/
def cumSums (l : List Nat) : List Nat := cumSumsFrom 0 l

/-- The left-window test `let sum = ps[i + win] - ps[i]; sum / (win as u32)
>= thr` of the source: a wrapping `u32` subtraction of two `u32` entries
(both below `2 ^ 32`, so `a.wrapping_sub b = (a + 2 ^ 32 - b) % 2 ^ 32`)
divided by the truncated `win as u32`.  For `win % 2 ^ 32 = 0` the program
panics (division by zero) where this total model yields `0`; the claims keep
out of that corner via read-length bounds. -/
def psWinLeftOK (ps : List Nat) (w thr i : Nat) : Bool :=
  decide (thr ≤ ((ps.getD (i + w) 0 + u32Card - ps.getD i 0) % u32Card) / (w % u32Card))

/-- The right-window test `let sum = ps[j + 1] - ps[j + 1 - win];
sum / (win as u32) >= thr`, with the same wrapping `u32` semantics as
`psWinLeftOK`. -/
def psWinRightOK (ps : List Nat) (w thr j : Nat) : Bool :=
  decide (thr ≤ ((ps.getD (j + 1) 0 + u32Card - ps.getD (j + 1 - w) 0) % u32Card) / (w % u32Card))

/-- The loop `for i in 0..=n-win { if ok { found_left = Some(i); break } }`,
with `fuel` the number of remaining iterations (`n - w + 1 - i` at the
wrapper; when the fuel is `0` we have `i > n - w` and the loop is done). -/
def findLeftGo (ps : List Nat) (n w thr : Nat) : Nat → Nat → Option Nat
  | 0, _ => none
  | fuel + 1, i =>
    if i ≤ n - w then
      if psWinLeftOK ps w thr i then some i
      else findLeftGo ps n w thr fuel (i + 1)
    else none

/-- The loop `for j in (win-1)..n { if ok { found_right = Some(j) } }`
(no break: the last qualifying `j` wins), with `fuel ≥ n - j`. -/
def findRightGo (ps : List Nat) (n w thr : Nat) : Nat → Nat → Option Nat → Option Nat
  | 0, _, acc => acc
  | fuel + 1, j, acc =>
    if j < n then
      findRightGo ps n w thr fuel (j + 1)
        (if psWinRightOK ps w thr j then some j else acc)
    else acc

/-- Sliding-window boundary resolution (src/trim.rs lines 58-101):
`start_idx` is the first qualifying window start (or `n` when none exists),
`end_idx` is the last qualifying window end (or `0` when none exists). -/
def windowBounds (qual : List Nat) (thr w : Nat) : Nat × Nat :=
  let n := qual.length
  let ps := cumSums (scoresOf qual)
  let s :=
    match findLeftGo ps n w thr (n - w + 1) 0 with
    | some i => i
    | none => n
  let e :=
    match findRightGo ps n w thr (n - (w - 1)) (w - 1) none with
    | some j => j
    | none => 0
  (s, e)

/-- Mode dispatch of the source: `window <= 1` and the `window > n` fallback
both run the single-base cursor loops (the fallback block of the source is a
verbatim copy of the single-base block); otherwise the sliding window runs. -/
def trimBounds (qual : List Nat) (thr w : Nat) : Nat × Nat :=
  if w ≤ 1 then singleBounds qual thr
  else if qual.length < w then singleBounds qual thr
  else windowBounds qual thr w

/-- The inclusive subrange `&l[a..=b]` of the source (defined when `b < l.length`). -/
def sliceIncl (l : List Nat) (a b : Nat) : List Nat := (l.drop a).take (b + 1 - a)

/-- `trim_record` from src/trim.rs.  `drop` is the source's `None`, `kept` its
`Some`, and `panic` the slice panic `&seq[start_idx..=end_idx]` /
`&qual[start_idx..=end_idx]` would raise when `end_idx` is out of range. -/
def trim_record (qual seq : List Nat) (qual_thr min_len window : Nat) : TrimResult :=
  if qual.length = 0 ∨ seq.length = 0 then .drop
  else
    let p := trimBounds qual qual_thr window
    if p.2 < p.1 then .drop
    else if p.2 - p.1 + 1 < min_len then .drop
    else if seq.length ≤ p.2 ∨ qual.length ≤ p.2 then .panic
    else .kept (sliceIncl seq p.1 p.2) (sliceIncl qual p.1 p.2)

/-! ### Characterisation of the single-base cursor loops -/

theorem advanceStartGo_ge (qual : List Nat) (thr : Nat) :
    ∀ fuel s e, s ≤ advanceStartGo qual thr fuel s e := by
  intro fuel
  induction fuel with
  | zero => intro s e; exact Nat.le_refl s
  | succ k ih =>
    intro s e
    simp only [advanceStartGo]
    by_cases hse : s ≤ e
    · rw [if_pos hse]
      by_cases hq : thr ≤ score (qual.getD s 0)
      · rw [if_pos hq]
      · rw [if_neg hq]
        exact Nat.le_trans (Nat.le_succ s) (ih (s + 1) e)
    · rw [if_neg hse]

theorem advanceStartGo_stop (qual : List Nat) (thr : Nat) :
    ∀ fuel s e, e + 1 ≤ fuel + s → advanceStartGo qual thr fuel s e ≤ e →
      thr ≤ score (qual.getD (advanceStartGo qual thr fuel s e) 0) := by
  intro fuel
  induction fuel with
  | zero =>
    intro s e hf hle
    simp only [advanceStartGo] at hle
    omega
  | succ k ih =>
    intro s e hf hle
    simp only [advanceStartGo] at hle ⊢
    by_cases hse : s ≤ e
    · rw [if_pos hse] at hle ⊢
      by_cases hq : thr ≤ score (qual.getD s 0)
      · rw [if_pos hq]
        exact hq
      · rw [if_neg hq] at hle ⊢
        exact ih (s + 1) e (by omega) hle
    · rw [if_neg hse] at hle
      omega

theorem advanceStart_ge (qual : List Nat) (thr s e : Nat) :
    s ≤ advanceStart qual thr s e :=
  advanceStartGo_ge qual thr (e + 1 - s) s e

theorem advanceStart_stop (qual : List Nat) (thr s e : Nat)
    (h : advanceStart qual thr s e ≤ e) :
    thr ≤ score (qual.getD (advanceStart qual thr s e) 0) := by
  unfold advanceStart at *
  by_cases hs : s ≤ e + 1
  · exact advanceStartGo_stop qual thr (e + 1 - s) s e (by omega) h
  · have := advanceStartGo_ge qual thr (e + 1 - s) s e
    omega

theorem advanceStart_first (qual : List Nat) (thr s e : Nat)
    (h : thr ≤ score (qual.getD s 0)) : advanceStart qual thr s e = s := by
  unfold advanceStart
  cases hf : e + 1 - s with
  | zero => rfl
  | succ k =>
    simp only [advanceStartGo]
    by_cases hse : s ≤ e
    · rw [if_pos hse, if_pos h]
    · rw [if_neg hse]

theorem retreatEndGo_le (qual : List Nat) (thr : Nat) :
    ∀ fuel s e, retreatEndGo qual thr fuel s e ≤ e := by
  intro fuel
  induction fuel with
  | zero => intro s e; exact Nat.le_refl e
  | succ k ih =>
    intro s e
    simp only [retreatEndGo]
    by_cases hse : s ≤ e
    · rw [if_pos hse]
      by_cases hq : thr ≤ score (qual.getD e 0)
      · rw [if_pos hq]
      · rw [if_neg hq]
        by_cases he0 : e = 0
        · rw [if_pos he0]
        · rw [if_neg he0]
          exact Nat.le_trans (ih s (e - 1)) (by omega)
    · rw [if_neg hse]

theorem retreatEndGo_stop (qual : List Nat) (thr : Nat) :
    ∀ fuel s e, e + 1 ≤ fuel → s ≤ retreatEndGo qual thr fuel s e →
      thr ≤ score (qual.getD (retreatEndGo qual thr fuel s e) 0) ∨
        retreatEndGo qual thr fuel s e = 0 := by
  intro fuel
  induction fuel with
  | zero => intro s e hf _; omega
  | succ k ih =>
    intro s e hf hs
    simp only [retreatEndGo] at hs ⊢
    by_cases hse : s ≤ e
    · rw [if_pos hse] at hs ⊢
      by_cases hq : thr ≤ score (qual.getD e 0)
      · rw [if_pos hq]
        exact Or.inl hq
      · rw [if_neg hq] at hs ⊢
        by_cases he0 : e = 0
        · rw [if_pos he0]
          exact Or.inr he0
        · rw [if_neg he0] at hs ⊢
          exact ih s (e - 1) (by omega) hs
    · rw [if_neg hse] at hs
      exact absurd hs hse

theorem retreatEnd_le (qual : List Nat) (thr s e : Nat) :
    retreatEnd qual thr s e ≤ e :=
  retreatEndGo_le qual thr (e + 1) s e

theorem retreatEnd_stop (qual : List Nat) (thr s e : Nat)
    (h : s ≤ retreatEnd qual thr s e) :
    thr ≤ score (qual.getD (retreatEnd qual thr s e) 0) ∨
      retreatEnd qual thr s e = 0 :=
  retreatEndGo_stop qual thr (e + 1) s e (Nat.le_refl _) h

theorem retreatEnd_first (qual : List Nat) (thr s e : Nat)
    (hse : s ≤ e) (h : thr ≤ score (qual.getD e 0)) :
    retreatEnd qual thr s e = e := by
  unfold retreatEnd
  simp only [retreatEndGo]
  rw [if_pos hse, if_pos h]

/-! ### Characterisation of the sliding-window scans -/

theorem findLeftGo_sound (ps : List Nat) (n w thr : Nat) :
    ∀ fuel i r, findLeftGo ps n w thr fuel i = some r →
      i ≤ r ∧ r ≤ n - w ∧ psWinLeftOK ps w thr r = true ∧
        ∀ k, i ≤ k → k < r → psWinLeftOK ps w thr k = false := by
  intro fuel
  induction fuel with
  | zero => intro i r h; cases h
  | succ f ih =>
    intro i r h
    simp only [findLeftGo] at h
    by_cases hi : i ≤ n - w
    · rw [if_pos hi] at h
      by_cases hok : psWinLeftOK ps w thr i = true
      · rw [if_pos hok] at h
        cases h
        exact ⟨Nat.le_refl _, hi, hok, fun k hk1 hk2 => by omega⟩
      · rw [if_neg hok] at h
        obtain ⟨h1, h2, h3, h4⟩ := ih (i + 1) r h
        refine ⟨by omega, h2, h3, fun k hk1 hk2 => ?_⟩
        rcases Nat.eq_or_lt_of_le hk1 with rfl | hk
        · simpa using hok
        · exact h4 k hk hk2
    · rw [if_neg hi] at h
      cases h

theorem findLeftGo_none (ps : List Nat) (n w thr : Nat) :
    ∀ fuel i, n - w + 1 ≤ fuel + i → findLeftGo ps n w thr fuel i = none →
      ∀ k, i ≤ k → k ≤ n - w → psWinLeftOK ps w thr k = false := by
  intro fuel
  induction fuel with
  | zero => intro i hf _ k hk1 hk2; omega
  | succ f ih =>
    intro i hf h k hk1 hk2
    simp only [findLeftGo] at h
    by_cases hi : i ≤ n - w
    · rw [if_pos hi] at h
      by_cases hok : psWinLeftOK ps w thr i = true
      · rw [if_pos hok] at h
        cases h
      · rw [if_neg hok] at h
        rcases Nat.eq_or_lt_of_le hk1 with rfl | hk
        · simpa using hok
        · exact ih (i + 1) (by omega) h k hk hk2
    · omega

theorem findLeftGo_first (ps : List Nat) (n w thr : Nat)
    (fuel i : Nat) (hf : n - w + 1 ≤ fuel + i) (hi : i ≤ n - w)
    (hok : psWinLeftOK ps w thr i = true) :
    findLeftGo ps n w thr fuel i = some i := by
  cases fuel with
  | zero => omega
  | succ f =>
    simp only [findLeftGo]
    rw [if_pos hi, if_pos hok]

theorem findLeftGo_all_fail (ps : List Nat) (n w thr : Nat) :
    ∀ fuel i, (∀ k, i ≤ k → k ≤ n - w → psWinLeftOK ps w thr k = false) →
      findLeftGo ps n w thr fuel i = none := by
  intro fuel
  induction fuel with
  | zero => intro i _; rfl
  | succ f ih =>
    intro i hfail
    simp only [findLeftGo]
    by_cases hi : i ≤ n - w
    · rw [if_pos hi, if_neg (by simp [hfail i (Nat.le_refl _) hi])]
      exact ih (i + 1) fun k hk1 hk2 => hfail k (by omega) hk2
    · rw [if_neg hi]

theorem findRightGo_acc_of_fail (ps : List Nat) (n w thr : Nat) :
    ∀ fuel j acc, (∀ k, j ≤ k → k < n → psWinRightOK ps w thr k = false) →
      findRightGo ps n w thr fuel j acc = acc := by
  intro fuel
  induction fuel with
  | zero => intro j acc _; rfl
  | succ f ih =>
    intro j acc hfail
    simp only [findRightGo]
    by_cases hj : j < n
    · rw [if_pos hj, if_neg (by simp [hfail j (Nat.le_refl _) hj])]
      exact ih (j + 1) acc fun k hk1 hk2 => hfail k (by omega) hk2
    · rw [if_neg hj]

theorem findRightGo_sound (ps : List Nat) (n w thr : Nat) :
    ∀ fuel j acc r, n ≤ fuel + j → findRightGo ps n w thr fuel j acc = some r →
      (acc = some r ∧ ∀ k, j ≤ k → k < n → psWinRightOK ps w thr k = false) ∨
      (j ≤ r ∧ r < n ∧ psWinRightOK ps w thr r = true ∧
        ∀ k, r < k → k < n → psWinRightOK ps w thr k = false) := by
  intro fuel
  induction fuel with
  | zero =>
    intro j acc r hf h
    exact Or.inl ⟨h, fun k hk1 hk2 => by omega⟩
  | succ f ih =>
    intro j acc r hf h
    simp only [findRightGo] at h
    by_cases hj : j < n
    · rw [if_pos hj] at h
      rcases ih (j + 1) _ r (by omega) h with ⟨hacc, hfail⟩ | ⟨h1, h2, h3, h4⟩
      · by_cases hok : psWinRightOK ps w thr j = true
        · rw [if_pos hok] at hacc
          cases hacc
          exact Or.inr ⟨Nat.le_refl _, hj, hok, hfail⟩
        · rw [if_neg hok] at hacc
          refine Or.inl ⟨hacc, fun k hk1 hk2 => ?_⟩
          rcases Nat.eq_or_lt_of_le hk1 with rfl | hk
          · simpa using hok
          · exact hfail k hk hk2
      · exact Or.inr ⟨by omega, h2, h3, h4⟩
    · rw [if_neg hj] at h
      exact Or.inl ⟨h, fun k hk1 hk2 => by omega⟩

theorem findRightGo_none (ps : List Nat) (n w thr : Nat) :
    ∀ fuel j acc, n ≤ fuel + j → findRightGo ps n w thr fuel j acc = none →
      acc = none ∧ ∀ k, j ≤ k → k < n → psWinRightOK ps w thr k = false := by
  intro fuel
  induction fuel with
  | zero => intro j acc hf h; exact ⟨h, fun k hk1 hk2 => by omega⟩
  | succ f ih =>
    intro j acc hf h
    simp only [findRightGo] at h
    by_cases hj : j < n
    · rw [if_pos hj] at h
      obtain ⟨hacc, hfail⟩ := ih (j + 1) _ (by omega) h
      by_cases hok : psWinRightOK ps w thr j = true
      · rw [if_pos hok] at hacc
        cases hacc
      · rw [if_neg hok] at hacc
        refine ⟨hacc, fun k hk1 hk2 => ?_⟩
        rcases Nat.eq_or_lt_of_le hk1 with rfl | hk
        · simpa using hok
        · exact hfail k hk hk2
    · rw [if_neg hj] at h
      exact ⟨h, fun k hk1 hk2 => by omega⟩

theorem findRightGo_last (ps : List Nat) (n w thr m : Nat)
    (hmn : m < n) (hok : psWinRightOK ps w thr m = true)
    (hmax : ∀ k, m < k → k < n → psWinRightOK ps w thr k = false) :
    ∀ fuel j acc, j ≤ m → n ≤ fuel + j →
      findRightGo ps n w thr fuel j acc = some m := by
  intro fuel
  induction fuel with
  | zero => intro j acc hjm hf; omega
  | succ f ih =>
    intro j acc hjm hf
    simp only [findRightGo]
    rw [if_pos (by omega : j < n)]
    rcases Nat.eq_or_lt_of_le hjm with rfl | hjm'
    · rw [if_pos hok]
      exact findRightGo_acc_of_fail ps n w thr f (j + 1) _
        (fun k hk1 hk2 => hmax k (by omega) hk2)
    · exact ih (j + 1) _ (by omega) (by omega)

/-! ### Prefix sums compute window sums -/

theorem cumSumsFrom_getD :
    ∀ (l : List Nat) (acc k : Nat), acc < u32Card → k ≤ l.length →
      (cumSumsFrom acc l).getD k 0 = (acc + (l.take k).sum) % u32Card := by
  intro l
  induction l with
  | nil =>
    intro acc k hacc hk
    simp only [List.length_nil, Nat.le_zero] at hk
    subst hk
    simp [cumSumsFrom, Nat.mod_eq_of_lt hacc]
  | cons x rest ih =>
    intro acc k hacc hk
    cases k with
    | zero => simp [cumSumsFrom, Nat.mod_eq_of_lt hacc]
    | succ m =>
      simp only [cumSumsFrom, List.getD_cons_succ, List.take_succ_cons, List.sum_cons]
      rw [ih ((acc + x) % u32Card) m (Nat.mod_lt _ (by unfold u32Card; norm_num))
        (by simpa using hk)]
      rw [Nat.mod_add_mod]
      ring_nf

/-- Wrapping subtraction of two running `u32` sums recovers the increment
modulo `2 ^ 32`. -/
theorem wrapSub_mod (a b : Nat) :
    ((a + b) % u32Card + u32Card - a % u32Card) % u32Card = b % u32Card := by
  unfold u32Card
  omega

/-- The wrapped window sum the source reads off the `u32` prefix sums is the
direct sum of the `w` scores starting at `i`, reduced modulo `2 ^ 32`. -/
theorem cumSums_winSum (l : List Nat) (w i : Nat) (h : i + w ≤ l.length) :
    ((cumSums l).getD (i + w) 0 + u32Card - (cumSums l).getD i 0) % u32Card
      = ((l.drop i).take w).sum % u32Card := by
  unfold cumSums
  rw [cumSumsFrom_getD l 0 (i + w) (by unfold u32Card; norm_num) h,
    cumSumsFrom_getD l 0 i (by unfold u32Card; norm_num) (by omega)]
  rw [List.take_add, List.sum_append]
  simpa using wrapSub_mod ((l.take i).sum) (((l.drop i).take w).sum)

/-- Sum of the `w` quality scores starting at index `i`: the quantity whose
floored mean the specification's window conditions are stated with. -/
def specWinSum (qual : List Nat) (w i : Nat) : Nat :=
  (((qual.map score).drop i).take w).sum

/-- The specification's window condition at window start `i`: the floor of the
mean of `scores[i..i+w)` is at least the threshold, with exact arithmetic. -/
def specWinOK (qual : List Nat) (w thr i : Nat) : Prop :=
  thr ≤ specWinSum qual w i / w

instance (qual : List Nat) (w thr i : Nat) : Decidable (specWinOK qual w thr i) := by
  unfold specWinOK
  infer_instance

/-- The window condition the program actually evaluates: the window sum
reduced modulo `2 ^ 32` divided by the truncated `u32` window size.  It is a
function of the window's contents alone, which is what the idempotence proof
needs; it coincides with `specWinOK` only below the overflow threshold. -/
def wrapWinOK (qual : List Nat) (w thr i : Nat) : Prop :=
  thr ≤ (specWinSum qual w i % u32Card) / (w % u32Card)

instance (qual : List Nat) (w thr i : Nat) : Decidable (wrapWinOK qual w thr i) := by
  unfold wrapWinOK
  infer_instance

theorem psWinLeftOK_iff (qual : List Nat) (w thr i : Nat) (h : i + w ≤ qual.length) :
    psWinLeftOK (cumSums (scoresOf qual)) w thr i = true ↔ wrapWinOK qual w thr i := by
  unfold psWinLeftOK wrapWinOK specWinSum scoresOf
  rw [decide_eq_true_iff]
  rw [cumSums_winSum (qual.map score) w i (by simpa using h)]

/-- Any window sum is bounded by the total score sum. -/
theorem specWinSum_le (qual : List Nat) (w i : Nat) :
    specWinSum qual w i ≤ (scoresOf qual).sum := by
  unfold specWinSum scoresOf
  have h1 : (((qual.map score).drop i).take w).sum
      + (((qual.map score).drop i).drop w).sum = ((qual.map score).drop i).sum := by
    rw [← List.sum_append, List.take_append_drop]
  have h2 : ((qual.map score).take i).sum + ((qual.map score).drop i).sum
      = (qual.map score).sum := by
    rw [← List.sum_append, List.take_append_drop]
  omega

/-- Below the overflow threshold (total score sum under `2 ^ 32`, window size
under `2 ^ 32`) the program's wrapped window test agrees with the
specification's exact window mean. -/
theorem wrapWinOK_iff_specWinOK (qual : List Nat) (w thr i : Nat)
    (hsum : (scoresOf qual).sum < u32Card) (hw32 : w < u32Card) :
    wrapWinOK qual w thr i ↔ specWinOK qual w thr i := by
  unfold wrapWinOK specWinOK
  have hle := specWinSum_le qual w i
  rw [Nat.mod_eq_of_lt (by omega), Nat.mod_eq_of_lt hw32]

theorem psWinRightOK_eq (ps : List Nat) (w thr j : Nat) (h : w ≤ j + 1) :
    psWinRightOK ps w thr j = psWinLeftOK ps w thr (j + 1 - w) := by
  unfold psWinRightOK psWinLeftOK
  rw [Nat.sub_add_cancel h]

/-! ### The inclusive subrange -/

theorem sliceIncl_length (l : List Nat) (a b : Nat)
    (hab : a ≤ b) (hb : b < l.length) : (sliceIncl l a b).length = b + 1 - a := by
  unfold sliceIncl
  rw [List.length_take, List.length_drop]
  omega

theorem sliceIncl_full (l : List Nat) (h : l ≠ []) :
    sliceIncl l 0 (l.length - 1) = l := by
  unfold sliceIncl
  have hlen : 0 < l.length := List.length_pos.mpr h
  rw [List.drop_zero]
  have : l.length - 1 + 1 - 0 = l.length := by omega
  rw [this, List.take_length]

theorem sliceIncl_getD (l : List Nat) (a b k : Nat)
    (hk : k ≤ b - a) (hab : a ≤ b) :
    (sliceIncl l a b).getD k 0 = l.getD (a + k) 0 := by
  unfold sliceIncl
  rw [List.getD_eq_getElem?_getD, List.getD_eq_getElem?_getD]
  rw [List.getElem?_take, if_pos (by omega : k < b + 1 - a)]
  rw [List.getElem?_drop]

theorem sliceIncl_drop_take (l : List Nat) (a b i w : Nat)
    (hiw : i + w ≤ b + 1 - a) :
    ((sliceIncl l a b).drop i).take w = (l.drop (a + i)).take w := by
  unfold sliceIncl
  rw [List.drop_take, List.drop_drop, List.take_take,
    Nat.min_eq_left (by omega)]

theorem sliceIncl_map (l : List Nat) (f : Nat → Nat) (a b : Nat) :
    (sliceIncl l a b).map f = sliceIncl (l.map f) a b := by
  unfold sliceIncl
  rw [List.map_take, List.map_drop]

/-! ### Characterisation of `trim_record` -/

/-- `trim_record` with its `let`-binding unfolded. -/
theorem trim_record_eq (qual seq : List Nat) (thr ml w : Nat) :
    trim_record qual seq thr ml w =
      if qual.length = 0 ∨ seq.length = 0 then .drop
      else if (trimBounds qual thr w).2 < (trimBounds qual thr w).1 then .drop
      else if (trimBounds qual thr w).2 - (trimBounds qual thr w).1 + 1 < ml then .drop
      else if seq.length ≤ (trimBounds qual thr w).2 ∨
          qual.length ≤ (trimBounds qual thr w).2 then .panic
      else .kept (sliceIncl seq (trimBounds qual thr w).1 (trimBounds qual thr w).2)
        (sliceIncl qual (trimBounds qual thr w).1 (trimBounds qual thr w).2) := rfl

/-- The right cursor the source computes always lies inside `qual`. -/
theorem trimBounds_snd_lt (qual : List Nat) (thr w : Nat) (h : qual ≠ []) :
    (trimBounds qual thr w).2 < qual.length := by
  have hn : 0 < qual.length := List.length_pos.mpr h
  unfold trimBounds
  split_ifs
  · have := retreatEnd_le qual thr (advanceStart qual thr 0 (qual.length - 1))
      (qual.length - 1)
    simpa [singleBounds] using by omega
  · have := retreatEnd_le qual thr (advanceStart qual thr 0 (qual.length - 1))
      (qual.length - 1)
    simpa [singleBounds] using by omega
  · simp only [windowBounds]
    cases hR : findRightGo (cumSums (scoresOf qual)) qual.length w thr
        (qual.length - (w - 1)) (w - 1) none with
    | none => simpa using hn
    | some j =>
      rcases findRightGo_sound _ _ _ _ _ _ _ _ (by omega) hR with ⟨hacc, _⟩ | ⟨_, hj, _, _⟩
      · cases hacc
      · simpa using hj

/-- Everything the `kept` branch of the source guarantees. -/
theorem trim_kept_elim (qual seq : List Nat) (thr ml w : Nat) (s q : List Nat)
    (h : trim_record qual seq thr ml w = .kept s q) :
    qual ≠ [] ∧ seq ≠ [] ∧
      (trimBounds qual thr w).1 ≤ (trimBounds qual thr w).2 ∧
      (trimBounds qual thr w).2 < seq.length ∧
      (trimBounds qual thr w).2 < qual.length ∧
      ml ≤ (trimBounds qual thr w).2 + 1 - (trimBounds qual thr w).1 ∧
      s = sliceIncl seq (trimBounds qual thr w).1 (trimBounds qual thr w).2 ∧
      q = sliceIncl qual (trimBounds qual thr w).1 (trimBounds qual thr w).2 := by
  rw [trim_record_eq] at h
  split_ifs at h with h1 h2 h3 h4
  push_neg at h1 h4
  injection h with hs hq
  refine ⟨?_, ?_, by omega, by omega, by omega, by omega, hs.symm, hq.symm⟩
  · intro hnil
    rw [hnil] at h1
    exact h1.1 rfl
  · intro hnil
    rw [hnil] at h1
    exact h1.2 rfl

/-- On a record whose sequence and quality have the same length, the slice
panic is unreachable. -/
theorem trim_record_ne_panic (qual seq : List Nat) (thr ml w : Nat)
    (hlen : seq.length = qual.length) : trim_record qual seq thr ml w ≠ .panic := by
  rw [trim_record_eq]
  split_ifs with h1 h2 h3 h4
  · exact fun hc => TrimResult.noConfusion hc
  · exact fun hc => TrimResult.noConfusion hc
  · exact fun hc => TrimResult.noConfusion hc
  · intro _
    push_neg at h1
    have hq : qual ≠ [] := by
      intro hnil
      rw [hnil] at h1
      exact h1.1 rfl
    have := trimBounds_snd_lt qual thr w hq
    omega
  · exact fun hc => TrimResult.noConfusion hc

theorem trim_drop_of_empty (qual seq : List Nat) (thr ml w : Nat)
    (h : qual = [] ∨ seq = []) : trim_record qual seq thr ml w = .drop := by
  rw [trim_record_eq, if_pos]
  rcases h with h | h <;> rw [h] <;> simp

theorem trim_drop_of_rev_bounds (qual seq : List Nat) (thr ml w : Nat)
    (h : (trimBounds qual thr w).2 < (trimBounds qual thr w).1) :
    trim_record qual seq thr ml w = .drop := by
  rw [trim_record_eq]
  split_ifs <;> first | rfl | omega

theorem trim_drop_of_short (qual seq : List Nat) (thr ml w : Nat)
    (h : (trimBounds qual thr w).2 + 1 - (trimBounds qual thr w).1 < ml) :
    trim_record qual seq thr ml w = .drop := by
  rw [trim_record_eq]
  split_ifs <;> first | rfl | omega

/-- Re-assembling the `kept` branch from its guards. -/
theorem trim_kept_intro (qual seq : List Nat) (thr ml w l r : Nat)
    (hq0 : qual ≠ []) (hs0 : seq ≠ [])
    (hb : trimBounds qual thr w = (l, r)) (hlr : l ≤ r)
    (hrs : r < seq.length) (hrq : r < qual.length)
    (hml : ¬ r - l + 1 < ml) :
    trim_record qual seq thr ml w = .kept (sliceIncl seq l r) (sliceIncl qual l r) := by
  have hql : 0 < qual.length := List.length_pos.mpr hq0
  have hsl : 0 < seq.length := List.length_pos.mpr hs0
  have hb1 : (trimBounds qual thr w).1 = l := by rw [hb]
  have hb2 : (trimBounds qual thr w).2 = r := by rw [hb]
  rw [trim_record_eq, hb1, hb2, if_neg (by omega), if_neg (by omega : ¬ r < l),
    if_neg hml, if_neg (by omega : ¬ (seq.length ≤ r ∨ qual.length ≤ r))]

/-! ### Mode-specific characterisations of the computed bounds -/

/-- In single-base mode a non-degenerate pair of cursors stops on scores at or
above the threshold at both ends. -/
theorem singleBounds_stop_scores (qual : List Nat) (thr l r : Nat)
    (h : singleBounds qual thr = (l, r)) (hlr : l ≤ r) :
    thr ≤ score (qual.getD l 0) ∧ thr ≤ score (qual.getD r 0) := by
  simp only [singleBounds, Prod.mk.injEq] at h
  obtain ⟨hl, hr⟩ := h
  rw [hl] at hr
  have hre : r ≤ qual.length - 1 := by
    rw [← hr]
    exact retreatEnd_le qual thr l (qual.length - 1)
  have hstopl : thr ≤ score (qual.getD l 0) := by
    have := advanceStart_stop qual thr 0 (qual.length - 1) (by rw [hl]; omega)
    rwa [hl] at this
  refine ⟨hstopl, ?_⟩
  have := retreatEnd_stop qual thr l (qual.length - 1) (by rw [hr]; exact hlr)
  rw [hr] at this
  rcases this with hhigh | hzero
  · exact hhigh
  · have hl0 : l = 0 := by omega
    rw [hzero]
    rw [hl0] at hstopl
    exact hstopl

/-- In windowed mode (`2 ≤ w ≤ n`) a kept pair of bounds consists of the least
qualifying window start and the greatest qualifying window end, stated with the
window condition the program evaluates (the wrapped `u32` mean). -/
theorem windowBounds_char (qual : List Nat) (thr w l r : Nat)
    (hw2 : 2 ≤ w) (hwn : w ≤ qual.length)
    (h : windowBounds qual thr w = (l, r)) (hlr : l ≤ r) (hrn : r < qual.length) :
    l + w ≤ qual.length ∧ wrapWinOK qual w thr l ∧
      (∀ k, k < l → ¬ wrapWinOK qual w thr k) ∧
      l + w ≤ r + 1 ∧ w ≤ r + 1 ∧ wrapWinOK qual w thr (r + 1 - w) ∧
      ∀ k, r < k → k < qual.length → ¬ wrapWinOK qual w thr (k + 1 - w) := by
  simp only [windowBounds, Prod.mk.injEq] at h
  obtain ⟨hl, hr⟩ := h
  have hn : 0 < qual.length := by omega
  -- the left scan must have found `l`
  cases hL : findLeftGo (cumSums (scoresOf qual)) qual.length w thr
      (qual.length - w + 1) 0 with
  | none =>
    simp only [hL] at hl
    omega
  | some i =>
    simp only [hL] at hl
    subst hl
    obtain ⟨-, hiw, hiok, himin⟩ := findLeftGo_sound _ _ _ _ _ _ _ hL
    have hlw : i + w ≤ qual.length := by omega
    have hlspec : wrapWinOK qual w thr i := (psWinLeftOK_iff qual w thr i hlw).mp hiok
    have hmin : ∀ k, k < i → ¬ wrapWinOK qual w thr k := by
      intro k hk hkspec
      have hkw : k + w ≤ qual.length := by omega
      have htrue := (psWinLeftOK_iff qual w thr k hkw).mpr hkspec
      rw [himin k (Nat.zero_le k) hk] at htrue
      cases htrue
    -- the right scan must have found `r`
    cases hR : findRightGo (cumSums (scoresOf qual)) qual.length w thr
        (qual.length - (w - 1)) (w - 1) none with
    | none =>
      obtain ⟨-, hfail⟩ := findRightGo_none _ _ _ _ _ _ _ (by omega) hR
      exfalso
      have hok' : psWinRightOK (cumSums (scoresOf qual)) w thr (i + w - 1) = true := by
        rw [psWinRightOK_eq _ _ _ _ (by omega)]
        have : i + w - 1 + 1 - w = i := by omega
        rw [this]
        exact hiok
      have := hfail (i + w - 1) (by omega) (by omega)
      rw [this] at hok'
      cases hok'
    | some j =>
      simp only [hR] at hr
      subst hr
      rcases findRightGo_sound _ _ _ _ _ _ _ _ (by omega) hR with ⟨hacc, -⟩ | ⟨hj1, hj2, hjok, hjmax⟩
      · cases hacc
      · have hwj : w ≤ j + 1 := by omega
        have hjspec : wrapWinOK qual w thr (j + 1 - w) := by
          rw [psWinRightOK_eq _ _ _ _ hwj] at hjok
          exact (psWinLeftOK_iff qual w thr (j + 1 - w) (by omega)).mp hjok
        have hlj : i + w ≤ j + 1 := by
          by_contra hcon
          exact hmin (j + 1 - w) (by omega) hjspec
        refine ⟨hlw, hlspec, hmin, hlj, hwj, hjspec, ?_⟩
        intro k hk1 hk2 hkspec
        have hwk : w ≤ k + 1 := by omega
        have htrue := (psWinLeftOK_iff qual w thr (k + 1 - w) (by omega)).mpr hkspec
        have hfalse := hjmax k hk1 hk2
        rw [psWinRightOK_eq _ _ _ _ hwk] at hfalse
        rw [hfalse] at htrue
        cases htrue

/-! ### All-high-quality reads -/

theorem length_mul_le_sum (t : Nat) :
    ∀ l : List Nat, (∀ x ∈ l, t ≤ x) → l.length * t ≤ l.sum := by
  intro l
  induction l with
  | nil => intro _; simp
  | cons x rest ih =>
    intro h
    have hx : t ≤ x := h x (List.mem_cons_self x rest)
    have := ih fun y hy => h y (List.mem_cons_of_mem x hy)
    simp only [List.length_cons, List.sum_cons]
    calc (rest.length + 1) * t = rest.length * t + t := by ring
    _ ≤ rest.sum + x := by omega
    _ = x + rest.sum := by omega

theorem specWinOK_of_allHigh (qual : List Nat) (thr w i : Nat)
    (hall : ∀ b ∈ qual, thr ≤ score b) (hw : 0 < w) (hiw : i + w ≤ qual.length) :
    specWinOK qual w thr i := by
  unfold specWinOK specWinSum
  have hlen : (((qual.map score).drop i).take w).length = w := by
    rw [List.length_take, List.length_drop, List.length_map]
    omega
  have hmem : ∀ x ∈ ((qual.map score).drop i).take w, thr ≤ x := by
    intro x hx
    have hx2 : x ∈ (qual.map score) := List.mem_of_mem_drop (List.mem_of_mem_take hx)
    obtain ⟨b, hb, rfl⟩ := List.mem_map.mp hx2
    exact hall b hb
  rw [Nat.le_div_iff_mul_le hw]
  calc thr * w = w * thr := by ring
  _ = (((qual.map score).drop i).take w).length * thr := by rw [hlen]
  _ ≤ (((qual.map score).drop i).take w).sum := length_mul_le_sum thr _ hmem

theorem allHigh_singleBounds (qual : List Nat) (thr : Nat)
    (hne : qual ≠ []) (hall : ∀ b ∈ qual, thr ≤ score b) :
    singleBounds qual thr = (0, qual.length - 1) := by
  have hn : 0 < qual.length := List.length_pos.mpr hne
  have h0 : thr ≤ score (qual.getD 0 0) := by
    rw [List.getD_eq_getElem qual 0 (by omega)]
    exact hall _ (List.getElem_mem _)
  have hlast : thr ≤ score (qual.getD (qual.length - 1) 0) := by
    rw [List.getD_eq_getElem qual 0 (by omega)]
    exact hall _ (List.getElem_mem _)
  simp only [singleBounds, Prod.mk.injEq]
  have ha : advanceStart qual thr 0 (qual.length - 1) = 0 :=
    advanceStart_first qual thr 0 (qual.length - 1) h0
  refine ⟨ha, ?_⟩
  rw [ha]
  exact retreatEnd_first qual thr 0 (qual.length - 1) (by omega) hlast

theorem allHigh_windowBounds (qual : List Nat) (thr w : Nat)
    (hw2 : 2 ≤ w) (hwn : w ≤ qual.length) (hall : ∀ b ∈ qual, thr ≤ score b)
    (hsum : (scoresOf qual).sum < u32Card) (hn32 : qual.length < u32Card) :
    windowBounds qual thr w = (0, qual.length - 1) := by
  have hn : 0 < qual.length := by omega
  have hL : findLeftGo (cumSums (scoresOf qual)) qual.length w thr
      (qual.length - w + 1) 0 = some 0 := by
    apply findLeftGo_first _ _ _ _ _ _ (by omega) (by omega)
    rw [psWinLeftOK_iff qual w thr 0 (by omega)]
    exact (wrapWinOK_iff_specWinOK qual w thr 0 hsum (by omega)).mpr
      (specWinOK_of_allHigh qual thr w 0 hall (by omega) (by omega))
  have hR : findRightGo (cumSums (scoresOf qual)) qual.length w thr
      (qual.length - (w - 1)) (w - 1) none = some (qual.length - 1) := by
    apply findRightGo_last _ _ _ _ _ (by omega) ?_ ?_ _ _ _ (by omega) (by omega)
    · rw [psWinRightOK_eq _ _ _ _ (by omega)]
      rw [psWinLeftOK_iff qual w thr (qual.length - 1 + 1 - w) (by omega)]
      exact (wrapWinOK_iff_specWinOK qual w thr _ hsum (by omega)).mpr
        (specWinOK_of_allHigh qual thr w _ hall (by omega) (by omega))
    · intro k hk1 hk2
      omega
  simp only [windowBounds, hL, hR]

/-! ### The paired-end lock-step loop of src/main.rs -/

/-- A parsed FASTQ record as the loop sees it: identifier plus the quality and
base sequences (the external record parser owns the textual grammar). -/
structure FqRecord where
  id : Nat
  qual : List Nat
  seq : List Nat
deriving DecidableEq, Repr

/-- The mutable state of the paired-end run: the three output sinks (as lists
of written `(id, seq, qual)` records, in write order) and the six counters
declared in src/main.rs lines 160-166. -/
structure PairState where
  out1 : List (Nat × List Nat × List Nat)
  out2 : List (Nat × List Nat × List Nat)
  outs : List (Nat × List Nat × List Nat)
  pairs_total : Nat
  pairs_kept : Nat
  pairs_dropped : Nat
  singletons : Nat
  read_r1 : Nat
  read_r2 : Nat
deriving DecidableEq, Repr

/-- All-zero counters and empty sinks at run start. -/
def initState : PairState := ⟨[], [], [], 0, 0, 0, 0, 0, 0⟩

/-- The `(None, Some(r2_res))` arms of the loop, once stream A is exhausted
(it stays exhausted, so these arms repeat until B also ends). `none` models a
Rust panic escaping the loop. -/
def bOnlyLoop (thr ml w : Nat) : List FqRecord → PairState → Option PairState
  | [], st => some st
  | r2 :: t2, st =>
    let st1 := { st with read_r2 := st.read_r2 + 1 }
    match trim_record r2.qual r2.seq thr ml w with
    | .panic => none
    | .kept s2 q2 =>
      bOnlyLoop thr ml w t2
        { st1 with outs := st1.outs ++ [(r2.id, s2, q2)],
                   singletons := st1.singletons + 1 }
    | .drop => bOnlyLoop thr ml w t2 st1

/-- The lock-step loop of src/main.rs lines 168-242: the four match arms on
`(iter1.next(), iter2.next())`, writing kept pairs to the R1/R2 sinks, kept
halves to the singleton sink, and counting. -/
def pairedLoop (thr ml w : Nat) :
    List FqRecord → List FqRecord → PairState → Option PairState
  | [], l2, st => bOnlyLoop thr ml w l2 st
  | r1 :: t1, [], st =>
    let st1 := { st with read_r1 := st.read_r1 + 1 }
    match trim_record r1.qual r1.seq thr ml w with
    | .panic => none
    | .kept s1 q1 =>
      pairedLoop thr ml w t1 []
        { st1 with outs := st1.outs ++ [(r1.id, s1, q1)],
                   singletons := st1.singletons + 1 }
    | .drop => pairedLoop thr ml w t1 [] st1
  | r1 :: t1, r2 :: t2, st =>
    let st1 := { st with read_r1 := st.read_r1 + 1, read_r2 := st.read_r2 + 1,
                         pairs_total := st.pairs_total + 1 }
    match trim_record r1.qual r1.seq thr ml w,
        trim_record r2.qual r2.seq thr ml w with
    | .panic, _ => none
    | _, .panic => none
    | .kept s1 q1, .kept s2 q2 =>
      pairedLoop thr ml w t1 t2
        { st1 with out1 := st1.out1 ++ [(r1.id, s1, q1)],
                   out2 := st1.out2 ++ [(r2.id, s2, q2)],
                   pairs_kept := st1.pairs_kept + 1 }
    | .kept s1 q1, .drop =>
      pairedLoop thr ml w t1 t2
        { st1 with outs := st1.outs ++ [(r1.id, s1, q1)],
                   singletons := st1.singletons + 1 }
    | .drop, .kept s2 q2 =>
      pairedLoop thr ml w t1 t2
        { st1 with outs := st1.outs ++ [(r2.id, s2, q2)],
                   singletons := st1.singletons + 1 }
    | .drop, .drop =>
      pairedLoop thr ml w t1 t2
        { st1 with pairs_dropped := st1.pairs_dropped + 1 }

/-- The post-run check `if read_r1 != read_r2` guarding the warning message
(src/main.rs lines 250-255). -/
def mismatchWarn (st : PairState) : Bool := st.read_r1 != st.read_r2

/-! ### The gzip auto-detection of src/io_utils.rs -/

/-- `buf.len() >= 2 && buf[0] == 0x1f && buf[1] == 0x8b` on the peeked buffer. -/
def isGzHeader (buf : List Nat) : Bool :=
  decide (2 ≤ buf.length) && decide (buf.getD 0 0 = 0x1f) && decide (buf.getD 1 0 = 0x8b)

/-- `open_input`: `fill_buf` exposes the buffered head of the stream (up to the
`BufReader` capacity of 8192 bytes) without consuming anything, the gzip magic
is tested on it, and the complete stream is handed to the chosen reader.  The
result is the detection flag together with the byte stream the downstream
reader (gzip decoder or pass-through) receives. -/
def open_input (data : List Nat) : Bool × List Nat :=
  let buf := data.take 8192
  (isGzHeader buf, data)

/-! ### Further helpers for the claim theorems -/

/-- `trim_kept_elim` with the bounds exposed as a pair. -/
theorem trim_kept_elim2 (qual seq : List Nat) (thr ml w : Nat) (s q : List Nat)
    (h : trim_record qual seq thr ml w = .kept s q) :
    ∃ l r, trimBounds qual thr w = (l, r) ∧ qual ≠ [] ∧ seq ≠ [] ∧
      l ≤ r ∧ r < seq.length ∧ r < qual.length ∧ ml ≤ r + 1 - l ∧
      s = sliceIncl seq l r ∧ q = sliceIncl qual l r := by
  obtain ⟨h1, h2, h3, h4, h5, h6, h7, h8⟩ := trim_kept_elim qual seq thr ml w s q h
  exact ⟨(trimBounds qual thr w).1, (trimBounds qual thr w).2, Prod.mk.eta.symm,
    h1, h2, h3, h4, h5, h6, h7, h8⟩

/-- When the resolved bounds are the whole read, `trim_record` keeps the whole
record. -/
theorem retrim_full (x y : List Nat) (thr ml w : Nat)
    (hxne : x ≠ []) (hyne : y ≠ [])
    (hb : trimBounds x thr w = (0, x.length - 1))
    (hml : ml ≤ x.length) (hylen : y.length = x.length) :
    trim_record x y thr ml w = .kept y x := by
  have hxl : 0 < x.length := List.length_pos.mpr hxne
  have h := trim_kept_intro x y thr ml w 0 (x.length - 1) hxne hyne hb (by omega)
    (by omega) (by omega) (by omega)
  have h1 : sliceIncl y 0 (x.length - 1) = y := by
    have he : x.length - 1 = y.length - 1 := by omega
    rw [he]
    exact sliceIncl_full y hyne
  have h2 : sliceIncl x 0 (x.length - 1) = x := sliceIncl_full x hxne
  rw [h, h1, h2]

/-- Single-base cursors stay at the ends when both end scores pass. -/
theorem singleBounds_full (x : List Nat) (thr : Nat)
    (h0 : thr ≤ score (x.getD 0 0)) (hend : thr ≤ score (x.getD (x.length - 1) 0)) :
    singleBounds x thr = (0, x.length - 1) := by
  simp only [singleBounds, Prod.mk.injEq]
  have ha : advanceStart x thr 0 (x.length - 1) = 0 := advanceStart_first x thr 0 _ h0
  refine ⟨ha, ?_⟩
  rw [ha]
  exact retreatEnd_first x thr 0 (x.length - 1) (Nat.zero_le _) hend

/-- A window inside a kept slice has the same contents, so the same score
sum, as the corresponding window of the original read. -/
theorem specWinSum_slice (x : List Nat) (a b i w : Nat)
    (hiw : i + w ≤ b + 1 - a) :
    specWinSum (sliceIncl x a b) w i = specWinSum x w (a + i) := by
  unfold specWinSum
  rw [sliceIncl_map, sliceIncl_drop_take (x.map score) a b i w hiw]

/-- Hence the program's (wrapped) window condition inside a kept slice is the
corresponding window condition of the original read: the test is a function
of the window's contents, whatever the arithmetic does. -/
theorem wrapWinOK_slice (x : List Nat) (a b i w thr : Nat)
    (hiw : i + w ≤ b + 1 - a) :
    wrapWinOK (sliceIncl x a b) w thr i ↔ wrapWinOK x w thr (a + i) := by
  unfold wrapWinOK
  rw [specWinSum_slice x a b i w hiw]

/-! ### The claims -/

/-- C1 counterexample: a non-empty pair of unequal lengths (`qual` of length 2,
`seq` of length 5, both lengths non-zero and different) is not dropped: the
source only tests the two slices for emptiness, so this input is kept. -/
theorem C1_counterexample :
    trim_record [63, 63] [65, 65, 65, 65, 65] 20 1 1 = .kept [65, 65] [63, 63] ∧
      trim_record [63, 63] [65, 65, 65, 65, 65] 20 1 1 ≠ .drop := by
  constructor
  · decide
  · decide

/-- C1 (amended): if either the quality or the sequence slice is empty,
`trim_record` returns the drop result; equality of non-zero lengths is not
checked (an unequal-length pair can be kept, or can make the final slicing
panic). -/
theorem C1_empty_drop (qual seq : List Nat) (thr ml w : Nat)
    (h : qual = [] ∨ seq = []) : trim_record qual seq thr ml w = .drop :=
  trim_drop_of_empty qual seq thr ml w h

theorem C1_empty_drop_witness :
    trim_record [] [65] 20 0 1 = .drop ∧ trim_record [43] [] 20 0 1 = .drop :=
  ⟨C1_empty_drop [] [65] 20 0 1 (Or.inl rfl), C1_empty_drop [43] [] 20 0 1 (Or.inr rfl)⟩

/-- C3: a kept result is the inclusive subrange `[l, r]` of both inputs, its
length lies between `min_len` and the input lengths, and the function drops
whenever the resolved bounds are reversed or give a length below `min_len`. -/
theorem C3_kept_subrange_bounds (qual seq : List Nat) (thr ml w : Nat) :
    (∀ s q, trim_record qual seq thr ml w = .kept s q →
      ∃ l r, l ≤ r ∧ r < seq.length ∧ r < qual.length ∧
        s = sliceIncl seq l r ∧ q = sliceIncl qual l r ∧
        s.length = r + 1 - l ∧ q.length = r + 1 - l ∧
        ml ≤ r + 1 - l ∧ r + 1 - l ≤ seq.length ∧ r + 1 - l ≤ qual.length) ∧
    ((trimBounds qual thr w).2 < (trimBounds qual thr w).1 →
      trim_record qual seq thr ml w = .drop) ∧
    ((trimBounds qual thr w).2 + 1 - (trimBounds qual thr w).1 < ml →
      trim_record qual seq thr ml w = .drop) := by
  refine ⟨?_, trim_drop_of_rev_bounds qual seq thr ml w,
    trim_drop_of_short qual seq thr ml w⟩
  intro s q h
  obtain ⟨l, r, hb, hqne, hsne, hlr, hrs, hrq, hml, hs, hq⟩ :=
    trim_kept_elim2 qual seq thr ml w s q h
  refine ⟨l, r, hlr, hrs, hrq, hs, hq, ?_, ?_, hml, by omega, by omega⟩
  · rw [hs]
    exact sliceIncl_length seq l r hlr hrs
  · rw [hq]
    exact sliceIncl_length qual l r hlr hrq

theorem C3_kept_subrange_bounds_witness :
    (∃ l r, l ≤ r ∧ r < ([65] : List Nat).length ∧ r < ([73] : List Nat).length ∧
      ([65] : List Nat) = sliceIncl [65] l r ∧ ([73] : List Nat) = sliceIncl [73] l r ∧
      ([65] : List Nat).length = r + 1 - l ∧ ([73] : List Nat).length = r + 1 - l ∧
      1 ≤ r + 1 - l ∧ r + 1 - l ≤ ([65] : List Nat).length ∧
      r + 1 - l ≤ ([73] : List Nat).length) ∧
    trim_record [43] [65] 20 1 1 = .drop ∧
    trim_record [73, 73] [65, 65] 20 3 1 = .drop :=
  ⟨(C3_kept_subrange_bounds [73] [65] 20 1 1).1 [65] [73] (by decide),
   (C3_kept_subrange_bounds [43] [65] 20 1 1).2.1 (by decide),
   (C3_kept_subrange_bounds [73, 73] [65, 65] 20 3 1).2.2 (by decide)⟩

/-- C10: trimming preserves the record invariant: a kept result consists of the
same contiguous index range of both inputs, so the two outputs have equal
length. -/
theorem C10_length_invariant (qual seq : List Nat) (thr ml w : Nat)
    (hlen : seq.length = qual.length) (s q : List Nat)
    (h : trim_record qual seq thr ml w = .kept s q) :
    s.length = q.length ∧
      ∃ l r, l ≤ r ∧ r < qual.length ∧
        s = sliceIncl seq l r ∧ q = sliceIncl qual l r := by
  obtain ⟨l, r, hb, hqne, hsne, hlr, hrs, hrq, hml, hs, hq⟩ :=
    trim_kept_elim2 qual seq thr ml w s q h
  refine ⟨?_, l, r, hlr, hrq, hs, hq⟩
  rw [hs, hq, sliceIncl_length seq l r hlr hrs, sliceIncl_length qual l r hlr hrq]

theorem C10_length_invariant_witness :
    ([65] : List Nat).length = ([73] : List Nat).length ∧
      ∃ l r, l ≤ r ∧ r < ([73] : List Nat).length ∧
        ([65] : List Nat) = sliceIncl [65] l r ∧ ([73] : List Nat) = sliceIncl [73] l r :=
  C10_length_invariant [73] [65] 20 1 1 rfl [65] [73] (by decide)

/-- C6: when the window exceeds the read length, the windowed mode falls back
to the single-base code and the result coincides with `window = 1`. -/
theorem C6_window_fallback (qual seq : List Nat) (thr ml w : Nat)
    (hne : qual ≠ []) (hlen : seq.length = qual.length) (hw : qual.length < w) :
    trim_record qual seq thr ml w = trim_record qual seq thr ml 1 := by
  have hn : 0 < qual.length := List.length_pos.mpr hne
  have hb : trimBounds qual thr w = trimBounds qual thr 1 := by
    unfold trimBounds
    rw [if_neg (by omega : ¬ w ≤ 1), if_pos hw, if_pos (by omega : (1 : Nat) ≤ 1)]
  rw [trim_record_eq, trim_record_eq, hb]

theorem C6_window_fallback_witness :
    trim_record [43, 43, 73, 73, 73, 73, 43, 43] [65, 67, 71, 84, 65, 67, 71, 84] 20 2 9 =
      trim_record [43, 43, 73, 73, 73, 73, 43, 43] [65, 67, 71, 84, 65, 67, 71, 84] 20 2 1 :=
  C6_window_fallback [43, 43, 73, 73, 73, 73, 43, 43] [65, 67, 71, 84, 65, 67, 71, 84]
    20 2 9 (by decide) rfl (by decide)

/-- C9: `open_input` flags an input as gzip exactly when its first two bytes
are `0x1f 0x8b`, hands the full (unconsumed) stream to the selected reader,
and treats anything shorter than two bytes as uncompressed. -/
theorem C9_gzip_detection (data : List Nat) :
    (open_input data).2 = data ∧
    ((open_input data).1 = true ↔
      2 ≤ data.length ∧ data.getD 0 0 = 0x1f ∧ data.getD 1 0 = 0x8b) ∧
    (data.length < 2 → (open_input data).1 = false) := by
  have hlen : (data.take 8192).length = min 8192 data.length := List.length_take ..
  have h0 : (data.take 8192).getD 0 0 = data.getD 0 0 := by
    rw [List.getD_eq_getElem?_getD, List.getD_eq_getElem?_getD, List.getElem?_take,
      if_pos (by omega : 0 < 8192)]
  have h1 : (data.take 8192).getD 1 0 = data.getD 1 0 := by
    rw [List.getD_eq_getElem?_getD, List.getD_eq_getElem?_getD, List.getElem?_take,
      if_pos (by omega : 1 < 8192)]
  refine ⟨rfl, ?_, ?_⟩
  · simp only [open_input, isGzHeader, Bool.and_eq_true, decide_eq_true_eq]
    rw [h0, h1, hlen]
    constructor
    · rintro ⟨⟨ha, hb⟩, hc⟩
      exact ⟨by omega, hb, hc⟩
    · rintro ⟨ha, hb, hc⟩
      exact ⟨⟨by omega, hb⟩, hc⟩
  · intro hshort
    have hfalse : decide (2 ≤ (data.take 8192).length) = false := by
      rw [decide_eq_false_iff_not, hlen]
      omega
    simp only [open_input, isGzHeader, hfalse, Bool.false_and]

theorem C9_gzip_detection_witness :
    (open_input [31]).1 = false ∧
    (open_input [31, 139, 7]).2 = [31, 139, 7] ∧
    (open_input [31, 139, 7]).1 = true :=
  ⟨(C9_gzip_detection [31]).2.2 (by decide), (C9_gzip_detection [31, 139, 7]).1,
   (C9_gzip_detection [31, 139, 7]).2.1.mpr (by decide)⟩

/-- C4 (amended): a read every one of whose scores passes the threshold is
returned unchanged (given it is long enough) for every window size — in
single-base mode, in windowed mode and in the fallback — provided its scores
sum to less than `2 ^ 32` and it is shorter than `2 ^ 32` bases, so that the
windowed mode's `u32` prefix-sum arithmetic cannot wrap and its `u32` window
divisor is exact.  Past that threshold the claim fails: see the
counterexample, where a release build drops an all-maximal-quality read (a
debug build panics on it). -/
theorem C4_all_high_unchanged (qual seq : List Nat) (thr ml w : Nat)
    (hall : ∀ b ∈ qual, thr ≤ score b) (hne : qual ≠ [])
    (hlen : seq.length = qual.length) (hml : ml ≤ qual.length)
    (hsum : (scoresOf qual).sum < u32Card) (hn32 : qual.length < u32Card) :
    trim_record qual seq thr ml w = .kept seq qual := by
  have hn : 0 < qual.length := List.length_pos.mpr hne
  have hsne : seq ≠ [] := by
    intro h0
    rw [h0] at hlen
    simp at hlen
    omega
  have hb : trimBounds qual thr w = (0, qual.length - 1) := by
    unfold trimBounds
    split_ifs with h1 h2
    · exact allHigh_singleBounds qual thr hne hall
    · exact allHigh_singleBounds qual thr hne hall
    · exact allHigh_windowBounds qual thr w (by omega) (by omega) hall hsum hn32
  exact retrim_full qual seq thr ml w hne hsne hb hml hlen

theorem C4_all_high_unchanged_witness :
    trim_record [53, 73, 63] [65, 67, 71] 20 3 2 = .kept [65, 67, 71] [53, 73, 63] :=
  C4_all_high_unchanged [53, 73, 63] [65, 67, 71] 20 3 2 (by decide) (by decide)
    rfl (by decide) (by decide) (by decide)

/-- The Phred scores of a maximal-quality (byte `255`) read. -/
theorem map_score_replicate (n : Nat) :
    (List.replicate n 255).map score = List.replicate n 222 := by
  rw [List.map_replicate]
  norm_num [score]

/-- The wrapped `u32` prefix sums of a constant-score read. -/
theorem cumSums_replicate_getD (n c k : Nat) (hk : k ≤ n) :
    (cumSums (List.replicate n c)).getD k 0 = k * c % u32Card := by
  unfold cumSums
  rw [cumSumsFrom_getD _ 0 k (by unfold u32Card; norm_num) (by simpa using hk)]
  rw [List.take_replicate, Nat.min_eq_left hk, List.sum_replicate, smul_eq_mul,
    Nat.zero_add]

/-- At `19346700` maximal-score bases the running `u32` score sum wraps:
`222 * 19346700 = 2 ^ 32 + 104`, so with `window = length` the program sees a
window sum of `104` and a floored window mean of `0 < 20` for the full-read
window, the only window there is. -/
theorem overflow_psWinLeft_false :
    psWinLeftOK (cumSums (scoresOf (List.replicate 19346700 255)))
      19346700 20 0 = false := by
  unfold psWinLeftOK
  rw [decide_eq_false_iff_not]
  have hsc : scoresOf (List.replicate 19346700 255) = List.replicate 19346700 222 := by
    unfold scoresOf
    exact map_score_replicate 19346700
  rw [hsc, Nat.zero_add, cumSums_replicate_getD 19346700 222 19346700 (Nat.le_refl _),
    cumSums_replicate_getD 19346700 222 0 (Nat.zero_le _)]
  decide

/-- The same wrapped window, seen by the right-boundary scan as the window
ending at the last base. -/
theorem overflow_psWinRight_false :
    psWinRightOK (cumSums (scoresOf (List.replicate 19346700 255)))
      19346700 20 19346699 = false := by
  unfold psWinRightOK
  rw [decide_eq_false_iff_not]
  have hsc : scoresOf (List.replicate 19346700 255) = List.replicate 19346700 222 := by
    unfold scoresOf
    exact map_score_replicate 19346700
  have e1 : (19346699 : Nat) + 1 = 19346700 := by norm_num
  have e2 : (19346700 : Nat) - 19346700 = 0 := by norm_num
  rw [hsc, e1, e2, cumSums_replicate_getD 19346700 222 19346700 (Nat.le_refl _),
    cumSums_replicate_getD 19346700 222 0 (Nat.zero_le _)]
  decide

/-- Hence neither boundary scan finds a qualifying window on the overflowing
read, and the resolved bounds are the reversed pair `(n, 0)`. -/
theorem overflow_bounds :
    trimBounds (List.replicate 19346700 255) 20 19346700 = (19346700, 0) := by
  have h1 : ¬ (19346700 : Nat) ≤ 1 := by omega
  have h2 : ¬ (List.replicate (19346700 : Nat) 255).length < 19346700 := by
    rw [List.length_replicate]
    omega
  unfold trimBounds
  rw [if_neg h1, if_neg h2]
  have hL : findLeftGo (cumSums (scoresOf (List.replicate 19346700 255)))
      19346700 19346700 20 (19346700 - 19346700 + 1) 0 = none :=
    findLeftGo_all_fail _ 19346700 19346700 20 _ 0 (fun k hk1 hk2 => by
      have hk0 : k = 0 := by omega
      rw [hk0]
      exact overflow_psWinLeft_false)
  have hR : findRightGo (cumSums (scoresOf (List.replicate 19346700 255)))
      19346700 19346700 20 (19346700 - (19346700 - 1)) (19346700 - 1) none = none :=
    findRightGo_acc_of_fail _ 19346700 19346700 20 _ (19346700 - 1) none
      (fun k hk1 hk2 => by
        have hk0 : k = 19346699 := by omega
        rw [hk0]
        exact overflow_psWinRight_false)
  simp only [windowBounds, List.length_replicate, hL, hR]

/-- The release-build program therefore drops the overflowing all-maximal
read (a debug build panics on the overflowing addition instead; neither
returns it unchanged). -/
theorem overflow_drop :
    trim_record (List.replicate 19346700 255) (List.replicate 19346700 65)
      20 1 19346700 = .drop := by
  apply trim_drop_of_rev_bounds
  rw [overflow_bounds]
  show (0 : Nat) < 19346700
  omega

/-- C2 counterexample: a `19346700`-base all-maximal-quality read with
`window = length`, threshold `20`, `min_len = 1`.  The unique window's true
floored mean is `222 ≥ 20`, so the claim's least/greatest qualifying windows
exist (both are the full read) and the claim says the kept region is the whole
read; but the `u32` window sum wraps to `104`, the program finds no qualifying
window and returns the drop signal. -/
theorem C2_counterexample :
    (List.replicate (19346700 : Nat) 65).length
        = (List.replicate (19346700 : Nat) 255).length ∧
    2 ≤ 19346700 ∧ (19346700 : Nat) ≤ (List.replicate (19346700 : Nat) 255).length ∧
    specWinOK (List.replicate 19346700 255) 19346700 20 0 ∧
    trim_record (List.replicate 19346700 255) (List.replicate 19346700 65)
      20 1 19346700 = .drop := by
  refine ⟨by rw [List.length_replicate, List.length_replicate], by omega,
    by rw [List.length_replicate], ?_, overflow_drop⟩
  apply specWinOK_of_allHigh
  · intro b hb
    rw [List.eq_of_mem_replicate hb]
    norm_num [score]
  · omega
  · rw [List.length_replicate]

/-- C4 counterexample: the same overflowing read satisfies every hypothesis of
the claim (every score is `222 ≥ 20`, equal non-zero lengths, length at least
`min_len = 1`), yet the program drops it instead of returning it unchanged. -/
theorem C4_counterexample :
    (∀ b ∈ List.replicate (19346700 : Nat) 255, 20 ≤ score b) ∧
    List.replicate (19346700 : Nat) 255 ≠ [] ∧
    (List.replicate (19346700 : Nat) 65).length
        = (List.replicate (19346700 : Nat) 255).length ∧
    1 ≤ (List.replicate (19346700 : Nat) 255).length ∧
    trim_record (List.replicate 19346700 255) (List.replicate 19346700 65)
      20 1 19346700 = .drop ∧
    trim_record (List.replicate 19346700 255) (List.replicate 19346700 65)
      20 1 19346700 ≠
      .kept (List.replicate 19346700 65) (List.replicate 19346700 255) := by
  refine ⟨?_, ?_, by rw [List.length_replicate, List.length_replicate],
    by rw [List.length_replicate]; omega, overflow_drop, ?_⟩
  · intro b hb
    rw [List.eq_of_mem_replicate hb]
    norm_num [score]
  · intro hc
    have hlc := congrArg List.length hc
    rw [List.length_replicate, List.length_nil] at hlc
    omega
  · rw [overflow_drop]
    exact fun hc => TrimResult.noConfusion hc

/-- C2 (amended): in windowed mode (`2 ≤ window ≤ read length`) on an
equal-length non-empty pair whose scores sum to less than `2 ^ 32` and whose
length is below `2 ^ 32` — so the `u32` prefix sums cannot wrap and the `u32`
window divisor is exact — a kept region runs from the least window start whose
floored mean passes the threshold to the greatest window end whose floored
mean passes it, and when no window passes the record is dropped.  Without the
overflow bound the boundary characterisation fails: see the counterexample. -/
theorem C2_window_boundaries (qual seq : List Nat) (thr ml w : Nat)
    (hlen : seq.length = qual.length) (hne : qual ≠ [])
    (hw2 : 2 ≤ w) (hwn : w ≤ qual.length)
    (hsum : (scoresOf qual).sum < u32Card) (hn32 : qual.length < u32Card) :
    ((∀ i, i + w ≤ qual.length → ¬ specWinOK qual w thr i) →
      trim_record qual seq thr ml w = .drop) ∧
    (∀ s q, trim_record qual seq thr ml w = .kept s q →
      ∃ l r, s = sliceIncl seq l r ∧ q = sliceIncl qual l r ∧
        l + w ≤ qual.length ∧ specWinOK qual w thr l ∧
        (∀ k, k < l → ¬ specWinOK qual w thr k) ∧
        w ≤ r + 1 ∧ r < qual.length ∧ specWinOK qual w thr (r + 1 - w) ∧
        (∀ k, r < k → k < qual.length → ¬ specWinOK qual w thr (k + 1 - w))) := by
  have hn : 0 < qual.length := List.length_pos.mpr hne
  have hbw : trimBounds qual thr w = windowBounds qual thr w := by
    unfold trimBounds
    rw [if_neg (by omega : ¬ w ≤ 1), if_neg (by omega : ¬ qual.length < w)]
  constructor
  · intro hnone
    apply trim_drop_of_rev_bounds
    rw [hbw]
    have h2 := trimBounds_snd_lt qual thr w hne
    rw [hbw] at h2
    have h1 : (windowBounds qual thr w).1 = qual.length := by
      simp only [windowBounds]
      cases hL : findLeftGo (cumSums (scoresOf qual)) qual.length w thr
          (qual.length - w + 1) 0 with
      | none => simp
      | some i =>
        exfalso
        obtain ⟨-, hiw, hiok, -⟩ := findLeftGo_sound _ _ _ _ _ _ _ hL
        have hwrap := (psWinLeftOK_iff qual w thr i (by omega)).mp hiok
        exact hnone i (by omega)
          ((wrapWinOK_iff_specWinOK qual w thr i hsum (by omega)).mp hwrap)
    omega
  · intro s q h
    obtain ⟨l, r, hb, hqne, hsne, hlr, hrs, hrq, hml, hs, hq⟩ :=
      trim_kept_elim2 qual seq thr ml w s q h
    rw [hbw] at hb
    obtain ⟨hlw, hlok, hmin, hlwr, hwr1, hrok, hmax⟩ :=
      windowBounds_char qual thr w l r hw2 hwn hb hlr hrq
    have hw32 : w < u32Card := by omega
    refine ⟨l, r, hs, hq, hlw,
      (wrapWinOK_iff_specWinOK qual w thr l hsum hw32).mp hlok,
      fun k hk hkspec =>
        hmin k hk ((wrapWinOK_iff_specWinOK qual w thr k hsum hw32).mpr hkspec),
      hwr1, hrq,
      (wrapWinOK_iff_specWinOK qual w thr (r + 1 - w) hsum hw32).mp hrok,
      fun k hk1 hk2 hkspec =>
        hmax k hk1 hk2
          ((wrapWinOK_iff_specWinOK qual w thr (k + 1 - w) hsum hw32).mpr hkspec)⟩

theorem C2_window_boundaries_witness :
    ∃ l r, ([65, 66, 67, 68] : List Nat) = sliceIncl [65, 66, 67, 68] l r ∧
      ([43, 73, 73, 43] : List Nat) = sliceIncl [43, 73, 73, 43] l r ∧
      l + 2 ≤ 4 ∧ specWinOK [43, 73, 73, 43] 2 20 l ∧
      (∀ k, k < l → ¬ specWinOK [43, 73, 73, 43] 2 20 k) ∧
      2 ≤ r + 1 ∧ r < 4 ∧ specWinOK [43, 73, 73, 43] 2 20 (r + 1 - 2) ∧
      (∀ k, r < k → k < 4 → ¬ specWinOK [43, 73, 73, 43] 2 20 (k + 1 - 2)) :=
  (C2_window_boundaries [43, 73, 73, 43] [65, 66, 67, 68] 20 1 2 rfl (by decide)
    (by decide) (by decide) (by decide) (by decide)).2
    [65, 66, 67, 68] [43, 73, 73, 43] (by decide)

/-- After a kept single-base trim, both ends of the kept quality pass the
threshold, so a second single-base pass keeps everything. -/
theorem single_retrim (qual : List Nat) (thr l r : Nat) (q : List Nat)
    (hbs : singleBounds qual thr = (l, r)) (hlr : l ≤ r) (hrq : r < qual.length)
    (hq : q = sliceIncl qual l r) (hqlen : q.length = r + 1 - l) :
    singleBounds q thr = (0, q.length - 1) := by
  obtain ⟨hsl, hsr⟩ := singleBounds_stop_scores qual thr l r hbs hlr
  have h0 : thr ≤ score (q.getD 0 0) := by
    rw [hq, sliceIncl_getD qual l r 0 (by omega) hlr]
    simpa using hsl
  have hend : thr ≤ score (q.getD (q.length - 1) 0) := by
    rw [hqlen, hq, sliceIncl_getD qual l r (r + 1 - l - 1) (by omega) hlr]
    have heq : l + (r + 1 - l - 1) = r := by omega
    rw [heq]
    exact hsr
  exact singleBounds_full q thr h0 hend

/-- C5: `trim_record` is idempotent: re-trimming a kept pair (with the kept
quality as the new quality input and the kept sequence as the new sequence
input) returns the pair unchanged. -/
theorem C5_idempotent (qual seq : List Nat) (thr ml w : Nat) (s q : List Nat)
    (h : trim_record qual seq thr ml w = .kept s q) :
    trim_record q s thr ml w = .kept s q := by
  obtain ⟨l, r, hb, hqne, hsne, hlr, hrs, hrq, hml, hs, hq⟩ :=
    trim_kept_elim2 qual seq thr ml w s q h
  have hqlen : q.length = r + 1 - l := by
    rw [hq]
    exact sliceIncl_length qual l r hlr hrq
  have hslen : s.length = r + 1 - l := by
    rw [hs]
    exact sliceIncl_length seq l r hlr hrs
  have hqne2 : q ≠ [] := by
    intro h0
    rw [h0] at hqlen
    simp at hqlen
    omega
  have hsne2 : s ≠ [] := by
    intro h0
    rw [h0] at hslen
    simp at hslen
    omega
  have hslq : s.length = q.length := by omega
  by_cases hw1 : w ≤ 1
  · have hbs : singleBounds qual thr = (l, r) := by
      rw [← hb]
      unfold trimBounds
      rw [if_pos hw1]
    have hbq : trimBounds q thr w = (0, q.length - 1) := by
      unfold trimBounds
      rw [if_pos hw1]
      exact single_retrim qual thr l r q hbs hlr hrq hq hqlen
    exact retrim_full q s thr ml w hqne2 hsne2 hbq (by omega) hslq
  · by_cases hwn : qual.length < w
    · have hbs : singleBounds qual thr = (l, r) := by
        rw [← hb]
        unfold trimBounds
        rw [if_neg hw1, if_pos hwn]
      have hbq : trimBounds q thr w = (0, q.length - 1) := by
        unfold trimBounds
        rw [if_neg hw1, if_pos (by omega : q.length < w)]
        exact single_retrim qual thr l r q hbs hlr hrq hq hqlen
      exact retrim_full q s thr ml w hqne2 hsne2 hbq (by omega) hslq
    · have hbw : windowBounds qual thr w = (l, r) := by
        rw [← hb]
        unfold trimBounds
        rw [if_neg hw1, if_neg hwn]
      obtain ⟨hlw, hlok, hmin, hlwr, hwr1, hrok, hmax⟩ :=
        windowBounds_char qual thr w l r (by omega) (by omega) hbw hlr hrq
      have hok0 : wrapWinOK q w thr 0 := by
        rw [hq]
        rw [wrapWinOK_slice qual l r 0 w thr (by omega)]
        simpa using hlok
      have hokend : wrapWinOK q w thr (r + 1 - l - w) := by
        rw [hq, wrapWinOK_slice qual l r (r + 1 - l - w) w thr (by omega)]
        have heq : l + (r + 1 - l - w) = r + 1 - w := by omega
        rw [heq]
        exact hrok
      have hbq : trimBounds q thr w = (0, q.length - 1) := by
        unfold trimBounds
        rw [if_neg hw1, if_neg (by omega : ¬ q.length < w)]
        have hL : findLeftGo (cumSums (scoresOf q)) q.length w thr
            (q.length - w + 1) 0 = some 0 := by
          apply findLeftGo_first _ _ _ _ _ _ (by omega) (by omega)
          rw [psWinLeftOK_iff q w thr 0 (by omega)]
          exact hok0
        have hR : findRightGo (cumSums (scoresOf q)) q.length w thr
            (q.length - (w - 1)) (w - 1) none = some (q.length - 1) := by
          apply findRightGo_last _ _ _ _ _ (by omega) ?_ ?_ _ _ _ (by omega) (by omega)
          · rw [psWinRightOK_eq _ _ _ _ (by omega)]
            rw [psWinLeftOK_iff q w thr (q.length - 1 + 1 - w) (by omega)]
            have heq2 : q.length - 1 + 1 - w = r + 1 - l - w := by omega
            rw [heq2]
            exact hokend
          · intro k hk1 hk2
            omega
        simp only [windowBounds, hL, hR]
      exact retrim_full q s thr ml w hqne2 hsne2 hbq (by omega) hslq

theorem C5_idempotent_witness :
    trim_record [73, 73, 73, 73] [71, 84, 65, 67] 20 2 1 =
      .kept [71, 84, 65, 67] [73, 73, 73, 73] :=
  C5_idempotent [43, 43, 73, 73, 73, 73, 43, 43] [65, 67, 71, 84, 65, 67, 71, 84]
    20 2 1 [71, 84, 65, 67] [73, 73, 73, 73] (by decide)

/-- C7: in a lock-step iteration where both streams yield a record, the two
records are trimmed and the four outcomes are routed exactly as in the source:
both kept → R1/R2 sinks and `pairs_kept`; exactly one kept → singleton sink
and `singletons`; none kept → nothing written and `pairs_dropped`; in every
case both read counters and `pairs_total` advance. -/
theorem C7_pair_classification (thr ml w : Nat) (r1 r2 : FqRecord)
    (t1 t2 : List FqRecord) (st : PairState) :
    (∀ s1 q1 s2 q2, trim_record r1.qual r1.seq thr ml w = .kept s1 q1 →
      trim_record r2.qual r2.seq thr ml w = .kept s2 q2 →
      pairedLoop thr ml w (r1 :: t1) (r2 :: t2) st =
        pairedLoop thr ml w t1 t2
          { st with read_r1 := st.read_r1 + 1, read_r2 := st.read_r2 + 1,
                    pairs_total := st.pairs_total + 1,
                    out1 := st.out1 ++ [(r1.id, s1, q1)],
                    out2 := st.out2 ++ [(r2.id, s2, q2)],
                    pairs_kept := st.pairs_kept + 1 }) ∧
    (∀ s1 q1, trim_record r1.qual r1.seq thr ml w = .kept s1 q1 →
      trim_record r2.qual r2.seq thr ml w = .drop →
      pairedLoop thr ml w (r1 :: t1) (r2 :: t2) st =
        pairedLoop thr ml w t1 t2
          { st with read_r1 := st.read_r1 + 1, read_r2 := st.read_r2 + 1,
                    pairs_total := st.pairs_total + 1,
                    outs := st.outs ++ [(r1.id, s1, q1)],
                    singletons := st.singletons + 1 }) ∧
    (∀ s2 q2, trim_record r1.qual r1.seq thr ml w = .drop →
      trim_record r2.qual r2.seq thr ml w = .kept s2 q2 →
      pairedLoop thr ml w (r1 :: t1) (r2 :: t2) st =
        pairedLoop thr ml w t1 t2
          { st with read_r1 := st.read_r1 + 1, read_r2 := st.read_r2 + 1,
                    pairs_total := st.pairs_total + 1,
                    outs := st.outs ++ [(r2.id, s2, q2)],
                    singletons := st.singletons + 1 }) ∧
    (trim_record r1.qual r1.seq thr ml w = .drop →
      trim_record r2.qual r2.seq thr ml w = .drop →
      pairedLoop thr ml w (r1 :: t1) (r2 :: t2) st =
        pairedLoop thr ml w t1 t2
          { st with read_r1 := st.read_r1 + 1, read_r2 := st.read_r2 + 1,
                    pairs_total := st.pairs_total + 1,
                    pairs_dropped := st.pairs_dropped + 1 }) := by
  refine ⟨?_, ?_, ?_, ?_⟩
  · intro s1 q1 s2 q2 h1 h2
    simp only [pairedLoop, h1, h2]
  · intro s1 q1 h1 h2
    simp only [pairedLoop, h1, h2]
  · intro s2 q2 h1 h2
    simp only [pairedLoop, h1, h2]
  · intro h1 h2
    simp only [pairedLoop, h1, h2]

theorem C7_pair_classification_witness :
    (pairedLoop 20 1 1 [⟨1, [73], [65]⟩] [⟨2, [73], [67]⟩] initState =
      pairedLoop 20 1 1 [] []
        { initState with read_r1 := initState.read_r1 + 1,
                         read_r2 := initState.read_r2 + 1,
                         pairs_total := initState.pairs_total + 1,
                         out1 := initState.out1 ++ [(1, [65], [73])],
                         out2 := initState.out2 ++ [(2, [67], [73])],
                         pairs_kept := initState.pairs_kept + 1 }) ∧
    (pairedLoop 20 1 1 [⟨1, [73], [65]⟩] [⟨4, [43], [68]⟩] initState =
      pairedLoop 20 1 1 [] []
        { initState with read_r1 := initState.read_r1 + 1,
                         read_r2 := initState.read_r2 + 1,
                         pairs_total := initState.pairs_total + 1,
                         outs := initState.outs ++ [(1, [65], [73])],
                         singletons := initState.singletons + 1 }) ∧
    (pairedLoop 20 1 1 [⟨3, [43], [66]⟩] [⟨2, [73], [67]⟩] initState =
      pairedLoop 20 1 1 [] []
        { initState with read_r1 := initState.read_r1 + 1,
                         read_r2 := initState.read_r2 + 1,
                         pairs_total := initState.pairs_total + 1,
                         outs := initState.outs ++ [(2, [67], [73])],
                         singletons := initState.singletons + 1 }) ∧
    (pairedLoop 20 1 1 [⟨3, [43], [66]⟩] [⟨4, [43], [68]⟩] initState =
      pairedLoop 20 1 1 [] []
        { initState with read_r1 := initState.read_r1 + 1,
                         read_r2 := initState.read_r2 + 1,
                         pairs_total := initState.pairs_total + 1,
                         pairs_dropped := initState.pairs_dropped + 1 }) :=
  ⟨(C7_pair_classification 20 1 1 ⟨1, [73], [65]⟩ ⟨2, [73], [67]⟩ [] [] initState).1
      [65] [73] [67] [73] (by decide) (by decide),
   (C7_pair_classification 20 1 1 ⟨1, [73], [65]⟩ ⟨4, [43], [68]⟩ [] [] initState).2.1
      [65] [73] (by decide) (by decide),
   (C7_pair_classification 20 1 1 ⟨3, [43], [66]⟩ ⟨2, [73], [67]⟩ [] [] initState).2.2.1
      [67] [73] (by decide) (by decide),
   (C7_pair_classification 20 1 1 ⟨3, [43], [66]⟩ ⟨4, [43], [68]⟩ [] [] initState).2.2.2
      (by decide) (by decide)⟩

/-- The trailing phase once stream B is exhausted: every remaining A record is
trimmed and, when kept, routed to the singleton sink; only `read_r1` and
`singletons` advance, and the loop completes. -/
theorem aOnly_phase (thr ml w : Nat) :
    ∀ (l1 : List FqRecord) (st : PairState),
      (∀ r ∈ l1, r.seq.length = r.qual.length) →
      ∃ st', pairedLoop thr ml w l1 [] st = some st' ∧
        st'.read_r1 = st.read_r1 + l1.length ∧
        st'.read_r2 = st.read_r2 ∧
        st'.pairs_total = st.pairs_total := by
  intro l1
  induction l1 with
  | nil =>
    intro st _
    exact ⟨st, rfl, by simp, rfl, rfl⟩
  | cons r1 t1 ih =>
    intro st hwf
    have hr1 := hwf r1 (List.mem_cons_self r1 t1)
    have hwf' : ∀ r ∈ t1, r.seq.length = r.qual.length :=
      fun r hr => hwf r (List.mem_cons_of_mem r1 hr)
    cases htrim : trim_record r1.qual r1.seq thr ml w with
    | panic => exact absurd htrim (trim_record_ne_panic _ _ _ _ _ hr1)
    | kept s1 q1 =>
      obtain ⟨st', hloop, h1, h2, h3⟩ := ih
        { st with read_r1 := st.read_r1 + 1,
                  outs := st.outs ++ [(r1.id, s1, q1)],
                  singletons := st.singletons + 1 } hwf'
      refine ⟨st', ?_, ?_, ?_, ?_⟩
      · rw [← hloop]
        simp only [pairedLoop, htrim]
      · simp only [List.length_cons]
        simp at h1
        omega
      · simpa using h2
      · simpa using h3
    | drop =>
      obtain ⟨st', hloop, h1, h2, h3⟩ := ih
        { st with read_r1 := st.read_r1 + 1 } hwf'
      refine ⟨st', ?_, ?_, ?_, ?_⟩
      · rw [← hloop]
        simp only [pairedLoop, htrim]
      · simp only [List.length_cons]
        simp at h1
        omega
      · simpa using h2
      · simpa using h3

/-- One lock-step iteration with both streams non-empty: whatever the two
trim outcomes, the loop advances to the tails with both read counters and
`pairs_total` incremented once. -/
theorem stepBoth (thr ml w : Nat) (r1 r2 : FqRecord)
    (h1 : r1.seq.length = r1.qual.length) (h2 : r2.seq.length = r2.qual.length)
    (st : PairState) :
    ∃ stU, (∀ t1 t2, pairedLoop thr ml w (r1 :: t1) (r2 :: t2) st =
        pairedLoop thr ml w t1 t2 stU) ∧
      stU.read_r1 = st.read_r1 + 1 ∧ stU.read_r2 = st.read_r2 + 1 ∧
      stU.pairs_total = st.pairs_total + 1 := by
  cases ht1 : trim_record r1.qual r1.seq thr ml w with
  | panic => exact absurd ht1 (trim_record_ne_panic _ _ _ _ _ h1)
  | kept s1 q1 =>
    cases ht2 : trim_record r2.qual r2.seq thr ml w with
    | panic => exact absurd ht2 (trim_record_ne_panic _ _ _ _ _ h2)
    | kept s2 q2 =>
      refine ⟨{ st with read_r1 := st.read_r1 + 1, read_r2 := st.read_r2 + 1,
                        pairs_total := st.pairs_total + 1,
                        out1 := st.out1 ++ [(r1.id, s1, q1)],
                        out2 := st.out2 ++ [(r2.id, s2, q2)],
                        pairs_kept := st.pairs_kept + 1 },
        fun t1 t2 => ?_, by simp, by simp, by simp⟩
      simp only [pairedLoop, ht1, ht2]
    | drop =>
      refine ⟨{ st with read_r1 := st.read_r1 + 1, read_r2 := st.read_r2 + 1,
                        pairs_total := st.pairs_total + 1,
                        outs := st.outs ++ [(r1.id, s1, q1)],
                        singletons := st.singletons + 1 },
        fun t1 t2 => ?_, by simp, by simp, by simp⟩
      simp only [pairedLoop, ht1, ht2]
  | drop =>
    cases ht2 : trim_record r2.qual r2.seq thr ml w with
    | panic => exact absurd ht2 (trim_record_ne_panic _ _ _ _ _ h2)
    | kept s2 q2 =>
      refine ⟨{ st with read_r1 := st.read_r1 + 1, read_r2 := st.read_r2 + 1,
                        pairs_total := st.pairs_total + 1,
                        outs := st.outs ++ [(r2.id, s2, q2)],
                        singletons := st.singletons + 1 },
        fun t1 t2 => ?_, by simp, by simp, by simp⟩
      simp only [pairedLoop, ht1, ht2]
    | drop =>
      refine ⟨{ st with read_r1 := st.read_r1 + 1, read_r2 := st.read_r2 + 1,
                        pairs_total := st.pairs_total + 1,
                        pairs_dropped := st.pairs_dropped + 1 },
        fun t1 t2 => ?_, by simp, by simp, by simp⟩
      simp only [pairedLoop, ht1, ht2]

/-- The lock-step phase: while both streams have records, the loop consumes
one record from each side per iteration, so after `min` many steps stream B is
exhausted and exactly the `l1.drop l2.length` suffix remains. -/
theorem bothPhase (thr ml w : Nat) :
    ∀ (l2 l1 : List FqRecord) (st : PairState),
      (∀ r ∈ l1, r.seq.length = r.qual.length) →
      (∀ r ∈ l2, r.seq.length = r.qual.length) →
      l2.length ≤ l1.length →
      ∃ stMid, pairedLoop thr ml w l1 l2 st =
          pairedLoop thr ml w (l1.drop l2.length) [] stMid ∧
        stMid.read_r1 = st.read_r1 + l2.length ∧
        stMid.read_r2 = st.read_r2 + l2.length ∧
        stMid.pairs_total = st.pairs_total + l2.length := by
  intro l2
  induction l2 with
  | nil =>
    intro l1 st _ _ _
    exact ⟨st, by simp, by simp, by simp, by simp⟩
  | cons r2 t2 ih =>
    intro l1 st hwf1 hwf2 hlen
    cases l1 with
    | nil => simp at hlen
    | cons r1 t1 =>
      obtain ⟨stU, hstep, hu1, hu2, hu3⟩ := stepBoth thr ml w r1 r2
        (hwf1 r1 (List.mem_cons_self r1 t1)) (hwf2 r2 (List.mem_cons_self r2 t2)) st
      obtain ⟨stMid, hloop, hm1, hm2, hm3⟩ := ih t1 stU
        (fun r hr => hwf1 r (List.mem_cons_of_mem r1 hr))
        (fun r hr => hwf2 r (List.mem_cons_of_mem r2 hr))
        (by simp only [List.length_cons] at hlen; omega)
      refine ⟨stMid, ?_, ?_, ?_, ?_⟩
      · rw [hstep t1 t2, hloop, List.length_cons, List.drop_succ_cons]
      · simp only [List.length_cons]
        omega
      · simp only [List.length_cons]
        omega
      · simp only [List.length_cons]
        omega

/-- C8: with `m = l1.length > n = l2.length` well-formed records per side, the
lock-step run completes (terminating exactly when both inputs are exhausted),
the `m - n` trailing A records go through the A-only phase, the counters show
`read_r1 = m`, `read_r2 = n` and `pairs_total = n` (so `m - n` records were
not processed as pairs), and the non-fatal count-mismatch warning fires, which
it does exactly when the per-side read counts differ. -/
theorem C8_paired_sync (thr ml w : Nat) (l1 l2 : List FqRecord)
    (hwf1 : ∀ r ∈ l1, r.seq.length = r.qual.length)
    (hwf2 : ∀ r ∈ l2, r.seq.length = r.qual.length)
    (hmn : l2.length < l1.length) :
    ∃ stMid st',
      pairedLoop thr ml w l1 l2 initState =
        pairedLoop thr ml w (l1.drop l2.length) [] stMid ∧
      (l1.drop l2.length).length = l1.length - l2.length ∧
      pairedLoop thr ml w l1 l2 initState = some st' ∧
      st'.read_r1 = l1.length ∧ st'.read_r2 = l2.length ∧
      st'.pairs_total = l2.length ∧
      mismatchWarn st' = true ∧
      (mismatchWarn st' = true ↔ st'.read_r1 ≠ st'.read_r2) := by
  obtain ⟨stMid, hsplit, hm1, hm2, hm3⟩ :=
    bothPhase thr ml w l2 l1 initState hwf1 hwf2 (by omega)
  obtain ⟨st', hrest, hr1, hr2, hr3⟩ := aOnly_phase thr ml w (l1.drop l2.length) stMid
    (fun r hr => hwf1 r (List.mem_of_mem_drop hr))
  have hdlen : (l1.drop l2.length).length = l1.length - l2.length := List.length_drop ..
  simp only [initState] at hm1 hm2 hm3
  have hc1 : st'.read_r1 = l1.length := by
    rw [hr1, hm1, hdlen]
    omega
  have hc2 : st'.read_r2 = l2.length := by
    rw [hr2, hm2]
    omega
  have hc3 : st'.pairs_total = l2.length := by
    rw [hr3, hm3]
    omega
  have hwarn : mismatchWarn st' = true := by
    unfold mismatchWarn
    rw [hc1, hc2]
    exact bne_iff_ne.mpr (by omega)
  refine ⟨stMid, st', hsplit, hdlen, ?_, hc1, hc2, hc3, hwarn, ?_⟩
  · rw [hsplit]
    exact hrest
  · unfold mismatchWarn
    exact bne_iff_ne

theorem C8_paired_sync_witness :
    ∃ stMid st',
      pairedLoop 20 1 1 [⟨1, [73], [65]⟩, ⟨2, [43], [66]⟩] [⟨5, [73], [71]⟩] initState =
        pairedLoop 20 1 1 ([⟨1, [73], [65]⟩, ⟨2, [43], [66]⟩].drop 1) [] stMid ∧
      (([⟨1, [73], [65]⟩, ⟨2, [43], [66]⟩] : List FqRecord).drop 1).length = 2 - 1 ∧
      pairedLoop 20 1 1 [⟨1, [73], [65]⟩, ⟨2, [43], [66]⟩] [⟨5, [73], [71]⟩] initState =
        some st' ∧
      st'.read_r1 = 2 ∧ st'.read_r2 = 1 ∧ st'.pairs_total = 1 ∧
      mismatchWarn st' = true ∧
      (mismatchWarn st' = true ↔ st'.read_r1 ≠ st'.read_r2) :=
  C8_paired_sync 20 1 1 [⟨1, [73], [65]⟩, ⟨2, [43], [66]⟩] [⟨5, [73], [71]⟩]
    (by decide) (by decide) (by decide)

end Rustrimmer
